import Mathlib

/-!
# pingproto: length-delimited keepalive framing

A shallow embedding of `pingproto.go` and `http.go`.

Conventions of the embedding.

* A byte is a `Fin 256`; Go's `int` is 64 bits wide and is modelled by `Int`
  (every `int` the code handles lies in the 64-bit range, so the only
  conversion that loses information is `uint32(length)` in `lenWrite`).
* An `io.Reader` is described by the bytes it will still deliver and the error
  its `Read` returns once they are delivered (`io.EOF` for an exhausted
  source).  `io.ReadFull`, `io.LimitReader` and `io.CopyBuffer` are modelled by
  their documented contracts, which do not depend on how the source splits its
  bytes over individual `Read` calls.
* An `io.Writer` is a state-passing function returning Go's `(n, err)`.
* The mutex and the goroutines are not modelled: an execution of the encoder is
  a sequence of `Write` calls, some made by the application and some by the
  ticker of `encoder.process`.
* Between handler and client stands `net/http`, which writes a response header
  field to the wire only if its name is a valid field name.
-/

namespace PingProto

/-! ## Bytes, errors, readers and writers -/

abbrev Byte := Fin 256

/-- Go error values that the code can observe. -/
inductive Error
  | EOF
  | ErrUnexpectedEOF
  | other (code : Nat)
  deriving DecidableEq, Repr

/-- An `io.Reader`: the bytes still to be delivered and the error returned by
`Read` once they have been delivered. -/
structure Reader where
  data : List Byte
  err : Error
  deriving DecidableEq, Repr

/-- The reader after `k` of its bytes have been consumed. -/
def Reader.skip (r : Reader) (k : Nat) : Reader :=
  { r with data := r.data.drop k }

/-- An `io.Writer` over a sink state `σ`: `Write(p)` returns the new sink state,
the byte count and the error. -/
abbrev Writer (σ : Type) := σ → List Byte → σ × Nat × Option Error

/-- Write method of `bytes.Buffer`: appends `p`, returns `(len(p), nil)`. -/
def bufferWrite : Writer (List Byte) :=
  fun s p => (s ++ p, p.length, none)

/-- A sink that accepts every write in full: `Write(p)` appends `p` to the bytes
the sink holds and returns `(len(p), nil)`. -/
def AcceptsInFull {σ : Type} (w : Writer σ) (held : σ → List Byte) : Prop :=
  ∀ s p, held (w s p).1 = held s ++ p ∧ (w s p).2 = (p.length, none)

/-- Contract of `io.ReadFull(r, buf)` with `len(buf) = n`: the bytes read, the
error and the reader afterwards.  The error is `EOF` only if no bytes were
read; an `EOF` after some but not all bytes becomes `ErrUnexpectedEOF`. -/
def ReadFull (r : Reader) (n : Nat) : List Byte × Option Error × Reader :=
  if n ≤ r.data.length then
    (r.data.take n, none, r.skip n)
  else if r.data ≠ [] ∧ r.err = Error.EOF then
    (r.data, some Error.ErrUnexpectedEOF, r.skip r.data.length)
  else
    (r.data, some r.err, r.skip r.data.length)

/-- Contract of `io.LimitReader(r, n)`: reads from `r` but stops with `EOF`
after `n` bytes (at once when `n <= 0`). -/
def LimitReader (r : Reader) (n : Int) : Reader :=
  if n.toNat ≤ r.data.length then ⟨r.data.take n.toNat, Error.EOF⟩ else r

/-- Contract of `io.CopyBuffer(dst, src, buf)` for a destination that accepts
every write (a pipe whose consumer keeps reading): the bytes forwarded and the
returned error.  Reaching `EOF` on `src` is a successful copy. -/
def CopyBuffer (src : Reader) : List Byte × Option Error :=
  (src.data, if src.err = Error.EOF then none else some src.err)

/-! ## Frame codec -/

/-- Model of `binary.LittleEndian.PutUint32(b, v)`. -/
def PutUint32 (v : Nat) : List Byte :=
  [Fin.ofNat v, Fin.ofNat (v / 256), Fin.ofNat (v / 65536), Fin.ofNat (v / 16777216)]

/-- Model of `binary.LittleEndian.Uint32(b)` on the 4-byte buffer whose first
bytes are `b` and whose remaining bytes are still zero. -/
def Uint32 (b : List Byte) : Nat :=
  (b.getD 0 0).val + 256 * (b.getD 1 0).val + 65536 * (b.getD 2 0).val
    + 16777216 * (b.getD 3 0).val

/-- Source `lenWrite`: writes `uint32(length)` little-endian, returns the
error of that write. -/
def lenWrite {σ : Type} (w : Writer σ) (s : σ) (length : Int) : σ × Option Error :=
  let buf := PutUint32 (length % 4294967296).toNat
  let res := w s buf
  (res.1, res.2.2)

/-- Source `lenRead`: `io.ReadFull` into a zeroed 4-byte buffer, then decode
whatever the buffer holds; returns `(int(length), err)` and the reader. -/
def lenRead (r : Reader) : Int × Option Error × Reader :=
  let res := ReadFull r 4
  ((Uint32 res.1 : Nat), res.2.1, res.2.2)

/-! ## Stream encoder -/

/-- Source `encoder.Write`. -/
def encoder.Write {σ : Type} (w : Writer σ) (s : σ) (p : List Byte) : σ × Nat × Option Error :=
  match lenWrite w s (p.length : Nat) with
  | (s1, some err) => (s1, 0, some err)
  | (s1, none) => w s1 p

/-- One `Write` call on an encoder: by the application with payload `p`, or by
the ticker branch of `encoder.process`, which calls `enc.Write(nil)`. -/
inductive Call
  | app (p : List Byte)
  | tick
  deriving DecidableEq, Repr

/-- Payload handed to `encoder.Write` by a call. -/
def Call.payload : Call → List Byte
  | Call.app p => p
  | Call.tick => []

/-- The sink after a sequence of `Write` calls, in call order. -/
def encoder.run {σ : Type} (w : Writer σ) : σ → List Call → σ
  | s, [] => s
  | s, c :: cs => encoder.run w (encoder.Write w s c.payload).1 cs

/-! ## Stream decoder -/

/-- What one run of `decoder.process` did. -/
structure Outcome where
  /-- Bytes forwarded to the pipe `d.w`, in order. -/
  out : List Byte
  /-- Number of calls of `pingTestCallback`. -/
  pings : Nat
  /-- Argument of the deferred `d.w.CloseWithError(err)`. -/
  err : Option Error
  deriving DecidableEq, Repr

/-- Source `decoder.process`; `fuel` bounds the number of iterations of the
frame loop, `none` means the bound was hit before the loop ended. -/
def decoder.process : Nat → Reader → Option Outcome
  | 0, _ => none
  | fuel + 1, r =>
    match lenRead r with
    | (_, some e, _) => some ⟨[], 0, some e⟩
    | (length, none, r1) =>
      if length = 0 then
        (decoder.process fuel r1).map fun o => { o with pings := o.pings + 1 }
      else
        match CopyBuffer (LimitReader r1 length) with
        | (written, some e) => some ⟨written, 0, some e⟩
        | (written, none) =>
          (decoder.process fuel (r1.skip written.length)).map
            fun o => { o with out := written ++ o.out }

/-- Error seen by reads on the pipe's read end after
`PipeWriter.CloseWithError(err)`: a nil `err` is replaced by `EOF`. -/
def CloseWithError (err : Option Error) : Error :=
  err.getD Error.EOF

/-- Source `NewReader`: the read end of the pipe fed by `decoder.process`. -/
def NewReader (fuel : Nat) (rIn : Reader) : Option Reader :=
  (decoder.process fuel rIn).map fun o => ⟨o.out, CloseWithError o.err⟩

/-- Contract of `ioutil.ReadAll(r)`: all bytes, and the terminal error unless it
is `EOF`. -/
def ReadAll (r : Reader) : List Byte × Option Error :=
  (r.data, if r.err = Error.EOF then none else some r.err)

/-! ## Wire format -/

/-- One frame on the wire: the 4-byte little-endian length of the payload,
then the payload. -/
def frame (p : List Byte) : List Byte :=
  PutUint32 p.length ++ p

/-- A wire made of complete frames, one per payload, in order. -/
def wireOf (frames : List (List Byte)) : List Byte :=
  (frames.map frame).flatten

/-- The chunks the application wrote, in call order, ticker calls left out. -/
def Call.chunks : List Call → List (List Byte)
  | [] => []
  | Call.app p :: cs => p :: Call.chunks cs
  | Call.tick :: cs => Call.chunks cs

/-! ## Negotiation layer -/

/-- Model of `http.Header`, indexed by canonical field name: the values of each
field in order, `[]` for a field that is not set.  Both field names the source
uses are left unchanged by `textproto.CanonicalMIMEHeaderKey`. -/
abbrev Header := String → List String

/-- Model of `Header.Get`: the first value of the field, `""` if there is none. -/
def Header.Get (h : Header) (key : String) : String :=
  (h key).headD ""

/-- Model of `Header.Add`: appends to the values of the field. -/
def Header.Add (h : Header) (key value : String) : Header :=
  fun k => if k = key then h k ++ [value] else h k

/-- Model of `Header.Set`: replaces the values of the field. -/
def Header.Set (h : Header) (key value : String) : Header :=
  fun k => if k = key then [value] else h k

/-- Model of `Header.Del`: removes the field. -/
def Header.Del (h : Header) (key : String) : Header :=
  fun k => if k = key then [] else h k

/-- Source constant `httpEncodingName`. -/
def httpEncodingName : String := "pingproto/1.0"

/-- The request field name literal of `http.go`. -/
def acceptEncodingKey : String := "Accept-Encoding"

/-- The response field name literal of `http.go` (lines 37, 42 and 79), copied
from the source: its ninth character is U+0395, Greek capital epsilon. -/
def markerKey : String := "Content-Εncoding"

/-- An `http.Request`, as far as the negotiation reads or writes it. -/
structure Request where
  Header : Header

/-- Field `resp.Body`: the body handed over by the transport, or the struct
built by `RoundTrip` around `NewReader(resp.Body)` (which embeds `isDecoder`). -/
inductive Body
  | raw (r : Reader)
  | unwrapped (inner : Body)
  deriving DecidableEq, Repr

/-- An `http.Response`, as far as the negotiation reads or writes it. -/
structure Response where
  Header : Header
  Body : Body

/-- An `http.RoundTripper`: Go's `(resp, err)`. -/
abbrev RoundTripper := Request → Response × Option Error

/-- The reader a body presents to its consumer; `fuel` bounds the frame loop
of each decoder on the way. -/
def Body.reader (fuel : Nat) : Body → Option Reader
  | Body.raw r => some r
  | Body.unwrapped inner => (Body.reader fuel inner).bind (NewReader fuel)

/-- Line 31 of `http.go`: `req.Header.Add("Accept-Encoding", httpEncodingName)`. -/
def advertise (req : Request) : Request :=
  { req with Header := Header.Add req.Header acceptEncodingKey httpEncodingName }

/-- Source `HTTPRoundTripper.RoundTrip` around the wrapped round tripper. -/
def HTTPRoundTripper.RoundTrip (inner : RoundTripper) (req : Request) :
    Response × Option Error :=
  match inner (advertise req) with
  | (resp, some err) => (resp, some err)
  | (resp, none) =>
    if Header.Get resp.Header markerKey ≠ httpEncodingName then
      (resp, none)
    else
      ({ Header := Header.Del resp.Header markerKey, Body := Body.unwrapped resp.Body }, none)

/-- An `http.ResponseWriter`: the response header map and the body bytes
written so far. -/
structure ResponseWriter where
  Header : Header
  wire : List Byte

/-- Write method of the response writer: appends to the body. -/
def ResponseWriter.Write : Writer ResponseWriter :=
  fun w p => ({ w with wire := w.wire ++ p }, p.length, none)

/-- The two writers `HTTPTryContentEncoding` can return: the struct embedding
`w` and `nopCloser`, or `NewWriter(w)`. -/
inductive WriteCloser
  | nop
  | encoder
  deriving DecidableEq, Repr

/-- Source `HTTPTryContentEncoding`: the response writer afterwards,
`wApplication` and `upgraded`. -/
def HTTPTryContentEncoding (w : ResponseWriter) (r : Request) :
    ResponseWriter × WriteCloser × Bool :=
  if Header.Get r.Header acceptEncodingKey ≠ httpEncodingName then
    (w, WriteCloser.nop, false)
  else
    ({ w with Header := Header.Set w.Header markerKey httpEncodingName },
      WriteCloser.encoder, true)

/-- Write method of `wApplication`: the embedded writer `w` itself, or
`encoder.Write` over `w`. -/
def WriteCloser.Write : WriteCloser → Writer ResponseWriter
  | WriteCloser.nop => ResponseWriter.Write
  | WriteCloser.encoder => encoder.Write ResponseWriter.Write

/-- Close method of `wApplication`: source `nopCloser.Close`, or
`encoder.Close`, which stops the ticker; both return nil and write nothing. -/
def WriteCloser.Close : WriteCloser → ResponseWriter → ResponseWriter × Option Error
  | WriteCloser.nop, w => (w, none)
  | WriteCloser.encoder, w => (w, none)

/-- The response writer after a sequence of calls on `wApplication`.  Ticker
calls exist only for the encoder, where they are `enc.Write(nil)`: without an
upgrade there is no ticker. -/
def WriteCloser.run (wc : WriteCloser) : ResponseWriter → List Call → ResponseWriter
  | w, [] => w
  | w, Call.app p :: cs => WriteCloser.run wc (wc.Write w p).1 cs
  | w, Call.tick :: cs =>
    match wc with
    | WriteCloser.nop => WriteCloser.run wc w cs
    | WriteCloser.encoder =>
      WriteCloser.run wc (encoder.Write ResponseWriter.Write w []).1 cs

/-- Contract of `httpguts.IsTokenRune`: the characters allowed in a header field
name, by code point: digits, ASCII letters and the fifteen token punctuation
characters. -/
def isTokenRune (c : Char) : Bool :=
  (48 ≤ c.toNat && c.toNat ≤ 57) || (65 ≤ c.toNat && c.toNat ≤ 90) ||
    (97 ≤ c.toNat && c.toNat ≤ 122) ||
    [33, 35, 36, 37, 38, 39, 42, 43, 45, 46, 94, 95, 96, 124, 126].contains c.toNat

/-- Contract of `httpguts.ValidHeaderFieldName`: non-empty and made of token
characters only. -/
def ValidHeaderFieldName (v : String) : Bool :=
  v.length ≠ 0 && v.toList.all isTokenRune

/-- The header fields `net/http` puts on the wire: `Header.writeSubset` skips
every field whose name is not a valid field name. -/
def Header.writeSubset (h : Header) : Header :=
  fun k => if ValidHeaderFieldName k then h k else []

/-- A `net/http` server whose handler obtains `wApplication` from
`HTTPTryContentEncoding` on a fresh response writer, makes the given calls and
closes.  The handler sees the request header as sent (it reads only
`Accept-Encoding`); the client receives the response header fields that
`net/http` writes and the body bytes unchanged. -/
def serve (calls : List Call) : RoundTripper := fun req =>
  let res := HTTPTryContentEncoding ⟨fun _ => [], []⟩ req
  let w := (res.2.1.Close (res.2.1.run res.1 calls)).1
  (⟨Header.writeSubset w.Header, Body.raw ⟨w.wire, Error.EOF⟩⟩, none)

/-- A request that already carries `Accept-Encoding: gzip`. -/
def gzipRequest : Request :=
  ⟨fun k => if k = "Accept-Encoding" then ["gzip"] else []⟩

/-- A request without header fields. -/
def plainRequest : Request :=
  ⟨fun _ => []⟩

/-! ## Failing sinks and closers -/

/-- A sink that records every write it is asked to make and fails each of them
with the given error, writing nothing. -/
def brokenWrite (e : Error) : Writer (List (List Byte)) :=
  fun log p => (log ++ [p], 0, some e)

/-- A sink with room for `cap` bytes: a write that fits is accepted in full, a
write that does not fit stores what fits and returns the short count with an
error. -/
def limitedWrite (cap : Nat) : Writer (List Byte) :=
  fun s p =>
    if s.length + p.length ≤ cap then (s ++ p, p.length, none)
    else (s ++ p.take (cap - s.length), cap - s.length, some (Error.other 28))

/-- An `io.Closer` over a state `σ`: `Close()` returns the new state and the
error. -/
abbrev Closer (σ : Type) := σ → σ × Option Error

/-- The loop of source `composeClosersImpl.Close`, with the variable `err`. -/
def composeClosersImpl.loop {σ : Type} : List (Closer σ) → σ → Option Error → σ × Option Error
  | [], s, err => (s, err)
  | closer :: rest, s, err =>
    let res := closer s
    composeClosersImpl.loop rest res.1 (if err = none then res.2 else err)

/-- Source `composeClosersImpl.Close`. -/
def composeClosersImpl.Close {σ : Type} (closers : List (Closer σ)) (s : σ) :
    σ × Option Error :=
  composeClosersImpl.loop closers s none

/-- A closer that appends its name to the log of `Close` calls and returns the
given result. -/
def logCloser (c : Nat × Option Error) : Closer (List Nat) :=
  fun log => (log ++ [c.1], c.2)

/-- A response that carries the token under the ASCII name `Content-Encoding`. -/
def asciiMarkedResponse : Response :=
  ⟨fun k => if k = "Content-Encoding" then ["pingproto/1.0"] else [],
    Body.raw ⟨[2, 0, 0, 0, 7, 8], Error.EOF⟩⟩

/-- A response that carries the token under the marker name of `http.go`, as an
in-process round tripper can return it. -/
def markedResponse : Response :=
  ⟨fun k => if k = markerKey then ["pingproto/1.0"] else [],
    Body.raw ⟨[2, 0, 0, 0, 7, 8], Error.EOF⟩⟩

/-! ## Auxiliary facts -/

theorem ofNat_val (v : Nat) : ((Fin.ofNat v : Byte) : Nat) = v % 256 := rfl

theorem Uint32_PutUint32 (v : Nat) (h : v < 4294967296) : Uint32 (PutUint32 v) = v := by
  simp only [Uint32, PutUint32, List.getD_cons_zero, List.getD_cons_succ, ofNat_val]
  omega

theorem PutUint32_Uint32 (b0 b1 b2 b3 : Byte) :
    PutUint32 (Uint32 [b0, b1, b2, b3]) = [b0, b1, b2, b3] := by
  have h0 := b0.isLt
  have h1 := b1.isLt
  have h2 := b2.isLt
  have h3 := b3.isLt
  simp only [Uint32, PutUint32, List.getD_cons_zero, List.getD_cons_succ]
  refine congrArg₂ _ ?_ (congrArg₂ _ ?_ (congrArg₂ _ ?_ (congrArg₂ _ ?_ rfl))) <;>
    (apply Fin.ext; rw [ofNat_val]; omega)

theorem Uint32_lt (b : List Byte) : Uint32 b < 4294967296 := by
  have h0 := (b.getD 0 0).isLt
  have h1 := (b.getD 1 0).isLt
  have h2 := (b.getD 2 0).isLt
  have h3 := (b.getD 3 0).isLt
  simp only [Uint32]
  omega

theorem lenRead_four (b0 b1 b2 b3 : Byte) (rest : List Byte) (e : Error) :
    lenRead ⟨b0 :: b1 :: b2 :: b3 :: rest, e⟩
      = ((Uint32 [b0, b1, b2, b3] : Int), none, (⟨rest, e⟩ : Reader)) := by
  simp [lenRead, ReadFull, Reader.skip]

theorem lenRead_PutUint32 (v : Nat) (h : v < 4294967296) (rest : List Byte) (e : Error) :
    lenRead ⟨PutUint32 v ++ rest, e⟩ = ((v : Int), none, (⟨rest, e⟩ : Reader)) := by
  have h2 := Uint32_PutUint32 v h
  simp only [PutUint32] at h2
  simp only [PutUint32, List.cons_append, List.nil_append, lenRead_four, h2]

theorem process_mono (fuel : Nat) : ∀ (r : Reader) (o : Outcome),
    decoder.process fuel r = some o → decoder.process (fuel + 1) r = some o := by
  induction fuel with
  | zero => intro r o h; simp [decoder.process] at h
  | succ k ih =>
    intro r o h
    rw [decoder.process] at h ⊢
    revert h
    rcases lenRead r with ⟨length, _ | e, r1⟩
    · simp only
      by_cases hz : length = 0
      · simp only [hz, if_true]
        cases hp : decoder.process k r1 with
        | none => simp
        | some o1 => rw [ih r1 o1 hp]; exact id
      · simp only [hz, if_false]
        rcases CopyBuffer (LimitReader r1 length) with ⟨written, _ | e⟩
        · simp only
          cases hp : decoder.process k (r1.skip written.length) with
          | none => simp
          | some o1 => rw [ih _ o1 hp]; exact id
        · exact id
    · exact id

theorem process_mono_le (fuel fuel2 : Nat) (hle : fuel ≤ fuel2) (r : Reader) (o : Outcome)
    (h : decoder.process fuel r = some o) : decoder.process fuel2 r = some o := by
  induction hle with
  | refl => exact h
  | step _ ih => exact process_mono _ r o ih

theorem process_frame (p tail : List Byte) (e : Error) (fuel : Nat)
    (h : p.length < 4294967296) :
    decoder.process (fuel + 1) ⟨frame p ++ tail, e⟩ =
      (decoder.process fuel ⟨tail, e⟩).map
        fun o => ⟨p ++ o.out, o.pings + (if p.length = 0 then 1 else 0), o.err⟩ := by
  rw [decoder.process, frame, List.append_assoc, lenRead_PutUint32 _ h]
  simp only
  by_cases hz : p.length = 0
  · have hp : p = [] := List.length_eq_zero.mp hz
    subst hp
    simp
  · have hz2 : ¬ ((p.length : Int) = 0) := by omega
    simp only [hz, hz2, if_false]
    have hL : LimitReader ⟨p ++ tail, e⟩ (p.length : Int) = ⟨p, Error.EOF⟩ := by
      simp [LimitReader]
    rw [hL]
    simp [CopyBuffer, Reader.skip]

theorem process_end (fuel : Nat) :
    decoder.process (fuel + 1) ⟨[], Error.EOF⟩ = some ⟨[], 0, some Error.EOF⟩ := by
  simp [decoder.process, lenRead, ReadFull]

theorem process_wireOf (frames : List (List Byte))
    (hlen : ∀ p ∈ frames, p.length < 4294967296) (tail : List Byte) (e : Error)
    (fuel : Nat) (o : Outcome) (h : decoder.process fuel ⟨tail, e⟩ = some o) :
    decoder.process (frames.length + fuel) ⟨wireOf frames ++ tail, e⟩ =
      some ⟨frames.flatten ++ o.out,
        (frames.filter fun p => p.length = 0).length + o.pings, o.err⟩ := by
  induction frames with
  | nil => simpa [wireOf] using h
  | cons p ps ih =>
    have hp : p.length < 4294967296 := hlen p (List.mem_cons_self _ _)
    have ih2 := ih (fun q hq => hlen q (List.mem_cons_of_mem _ hq))
    have e1 : wireOf (p :: ps) ++ tail = frame p ++ (wireOf ps ++ tail) := by
      simp [wireOf]
    have e2 : (p :: ps).length + fuel = (ps.length + fuel) + 1 := by
      simp only [List.length_cons]; omega
    rw [e1, e2, process_frame p _ e _ hp, ih2]
    by_cases hz : p.length = 0
    · simp only [hz, List.filter_cons, Option.map_some', if_true, decide_True, List.length_cons,
        List.flatten_cons, List.append_assoc]
      congr 2
      omega
    · simp only [hz, List.filter_cons, Option.map_some', if_false, decide_False, List.flatten_cons,
        List.append_assoc, Nat.add_zero]
      simp

theorem PutUint32_bytes (v : Nat) :
    ∃ b0 b1 b2 b3 : Byte, PutUint32 v = [b0, b1, b2, b3] ∧
      b0.val = v % 256 ∧ b1.val = v / 256 % 256 ∧
      b2.val = v / 65536 % 256 ∧ b3.val = v / 16777216 % 256 :=
  ⟨_, _, _, _, rfl, rfl, rfl, rfl, rfl⟩

theorem Write_accepting {σ : Type} (w : Writer σ) (held : σ → List Byte)
    (hw : AcceptsInFull w held) (s : σ) (p : List Byte) :
    held (encoder.Write w s p).1 = held s ++ PutUint32 (p.length % 4294967296) ++ p ∧
      (encoder.Write w s p).2 = (p.length, none) := by
  have h1 := hw s (PutUint32 (p.length % 4294967296))
  have h2 := hw (w s (PutUint32 (p.length % 4294967296))).1 p
  have e : (((p.length : Nat) : Int) % 4294967296).toNat = p.length % 4294967296 := by omega
  simp only [encoder.Write, lenWrite, e]
  rw [h1.2]
  simp only
  rw [h2.1, h2.2, h1.1]
  exact ⟨rfl, rfl⟩

theorem run_accepting {σ : Type} (w : Writer σ) (held : σ → List Byte)
    (hw : AcceptsInFull w held) (calls : List Call) :
    ∀ s : σ, (∀ c ∈ calls, c.payload.length < 4294967296) →
      held (encoder.run w s calls) = held s ++ wireOf (calls.map Call.payload) := by
  induction calls with
  | nil => intro s _; simp [encoder.run, wireOf]
  | cons c cs ih =>
    intro s h
    have hc : c.payload.length < 4294967296 := h c (List.mem_cons_self _ _)
    rw [encoder.run, ih _ (fun d hd => h d (List.mem_cons_of_mem _ hd)),
      (Write_accepting w held hw s c.payload).1, Nat.mod_eq_of_lt hc]
    simp [wireOf, frame]

theorem bufferWrite_accepts : AcceptsInFull bufferWrite id :=
  fun _ _ => ⟨rfl, rfl⟩

theorem flatten_filter_nonempty (frames : List (List Byte)) :
    (frames.filter fun p => p.length ≠ 0).flatten = frames.flatten := by
  induction frames with
  | nil => rfl
  | cons p ps ih =>
    by_cases hz : p.length = 0
    · have hp : p = [] := List.length_eq_zero.mp hz
      subst hp
      simpa [List.filter_cons] using ih
    · simp only [List.filter_cons, hz, ne_eq, not_false_eq_true, decide_True, if_true,
        List.flatten_cons, ih]

theorem process_complete_frames (frames : List (List Byte))
    (hlen : ∀ p ∈ frames, p.length < 4294967296) (fuel : Nat) (hfuel : frames.length < fuel) :
    decoder.process fuel ⟨wireOf frames, Error.EOF⟩ =
      some ⟨frames.flatten, (frames.filter fun p => p.length = 0).length, some Error.EOF⟩ := by
  have h := process_wireOf frames hlen [] Error.EOF 1 _ (process_end 0)
  simp only [List.append_nil, Nat.add_zero] at h
  exact process_mono_le _ _ hfuel _ _ h

theorem payload_flatten (calls : List Call) :
    (calls.map Call.payload).flatten = (Call.chunks calls).flatten := by
  induction calls with
  | nil => rfl
  | cons c cs ih =>
    cases c with
    | app p => simp [Call.payload, Call.chunks, ih]
    | tick => simp [Call.payload, Call.chunks, ih]

theorem payload_bound (calls : List Call)
    (hlen : ∀ p ∈ Call.chunks calls, p.length < 4294967296) :
    ∀ p ∈ calls.map Call.payload, p.length < 4294967296 := by
  induction calls with
  | nil => intro p hp; simp at hp
  | cons c cs ih =>
    intro p hp
    cases c with
    | app q =>
      simp only [List.map_cons, List.mem_cons, Call.payload] at hp
      rcases hp with rfl | hp
      · exact hlen _ (by simp [Call.chunks])
      · exact ih (fun x hx => hlen x (by simp [Call.chunks, hx])) p hp
    | tick =>
      simp only [List.map_cons, List.mem_cons, Call.payload] at hp
      rcases hp with rfl | hp
      · simp
      · exact ih (fun x hx => hlen x (by simpa [Call.chunks] using hx)) p hp

theorem NewReader_wireOf (frames : List (List Byte))
    (hlen : ∀ p ∈ frames, p.length < 4294967296) (fuel : Nat) (hfuel : frames.length < fuel) :
    NewReader fuel ⟨wireOf frames, Error.EOF⟩ = some ⟨frames.flatten, Error.EOF⟩ := by
  simp [NewReader, process_complete_frames frames hlen fuel hfuel, CloseWithError]

theorem process_truncated_payload (L : Nat) (part : List Byte) (hL : L < 4294967296)
    (hpart : part.length < L) (fuel : Nat) :
    decoder.process (fuel + 2) ⟨PutUint32 L ++ part, Error.EOF⟩ =
      some ⟨part, 0, some Error.EOF⟩ := by
  rw [decoder.process, lenRead_PutUint32 L hL]
  have hz : ¬ ((L : Int) = 0) := by omega
  have hL2 : LimitReader ⟨part, Error.EOF⟩ (L : Int) = ⟨part, Error.EOF⟩ := by
    have : ¬ (L ≤ part.length) := by omega
    simp [LimitReader, this]
  simp only [hz, if_false, hL2, CopyBuffer, if_true, Reader.skip, List.drop_length]
  rw [process_end]
  simp

theorem Get_eq_token_iff (h : Header) (key : String) :
    Header.Get h key = httpEncodingName ↔ (h key).head? = some "pingproto/1.0" := by
  have hne : ¬ ("" = "pingproto/1.0") := by decide
  cases hk : h key with
  | nil => simp [Header.Get, hk, httpEncodingName, hne]
  | cons v vs => simp [Header.Get, hk, httpEncodingName]

theorem ResponseWriter_accepts : AcceptsInFull ResponseWriter.Write ResponseWriter.wire :=
  fun _ _ => ⟨rfl, rfl⟩

theorem encoder_Write_Header (w : ResponseWriter) (p : List Byte) :
    (encoder.Write ResponseWriter.Write w p).1.Header = w.Header := by
  simp [encoder.Write, lenWrite, ResponseWriter.Write]

theorem encoder_run_Header (calls : List Call) :
    ∀ w : ResponseWriter, (encoder.run ResponseWriter.Write w calls).Header = w.Header := by
  induction calls with
  | nil => intro w; rfl
  | cons c cs ih => intro w; rw [encoder.run, ih, encoder_Write_Header]

theorem run_encoder (calls : List Call) :
    ∀ w : ResponseWriter,
      WriteCloser.run WriteCloser.encoder w calls = encoder.run ResponseWriter.Write w calls := by
  induction calls with
  | nil => intro w; rfl
  | cons c cs ih =>
    intro w
    cases c with
    | app p => rw [WriteCloser.run, encoder.run, ih]; rfl
    | tick => rw [WriteCloser.run, encoder.run]; simp only [ih]; rfl

theorem run_nop (calls : List Call) :
    ∀ w : ResponseWriter,
      WriteCloser.run WriteCloser.nop w calls
        = ⟨w.Header, w.wire ++ (Call.chunks calls).flatten⟩ := by
  induction calls with
  | nil => intro w; simp [WriteCloser.run, Call.chunks]
  | cons c cs ih =>
    intro w
    cases c with
    | app p =>
      rw [WriteCloser.run, ih]
      simp [WriteCloser.Write, ResponseWriter.Write, Call.chunks]
    | tick =>
      rw [WriteCloser.run]
      simp only [ih, Call.chunks]

theorem writeSubset_marker (h : Header) : Header.writeSubset h markerKey = [] := by
  have hv : ValidHeaderFieldName markerKey = false := by decide
  simp [Header.writeSubset, hv]

theorem serve_marker (calls : List Call) (req : Request) :
    Header.Get (serve calls req).1.Header markerKey ≠ httpEncodingName := by
  have hne : ¬ ("" = httpEncodingName) := by decide
  simp only [serve, Header.Get, writeSubset_marker, List.headD_nil, ne_eq]
  exact hne

theorem serve_snd (calls : List Call) (req : Request) : (serve calls req).2 = none := rfl

theorem RoundTrip_serve (calls : List Call) (req : Request) :
    HTTPRoundTripper.RoundTrip (serve calls) req = serve calls (advertise req) := by
  have h1 := serve_marker calls (advertise req)
  have h2 := serve_snd calls (advertise req)
  rcases hs : serve calls (advertise req) with ⟨resp, err⟩
  rw [hs] at h1 h2
  simp only at h1 h2
  subst h2
  simp only [HTTPRoundTripper.RoundTrip, hs, h1, ne_eq, not_false_eq_true, if_true]

theorem advertise_plain_recognised (req : Request) (h : req.Header "Accept-Encoding" = []) :
    Header.Get (advertise req).Header acceptEncodingKey = httpEncodingName := by
  simp [advertise, Header.Get, Header.Add, acceptEncodingKey, h]

theorem Get_marker_empty : Header.Get (fun _ => []) markerKey ≠ httpEncodingName := by
  decide

theorem Get_marker_Set (h : Header) :
    Header.Get (Header.Set h markerKey httpEncodingName) markerKey = httpEncodingName := by
  simp [Header.Get, Header.Set]

theorem process_short (w : List Byte) (hw : w.length < 4) (fuel : Nat) :
    decoder.process (fuel + 1) ⟨w, Error.EOF⟩ =
      some ⟨[], 0, some (if w.length = 0 then Error.EOF else Error.ErrUnexpectedEOF)⟩ := by
  have h4 : ¬ (4 ≤ w.length) := by omega
  by_cases hz : w.length = 0
  · have hn : w = [] := List.length_eq_zero.mp hz
    subst hn
    simp [decoder.process, lenRead, ReadFull]
  · have hn : w ≠ [] := fun h => hz (by simp [h])
    simp [decoder.process, lenRead, ReadFull, h4, hn, hz]

theorem process_four (b0 b1 b2 b3 : Byte) (rest : List Byte) (fuel : Nat) :
    decoder.process (fuel + 1) ⟨b0 :: b1 :: b2 :: b3 :: rest, Error.EOF⟩ =
      if Uint32 [b0, b1, b2, b3] = 0 then
        (decoder.process fuel ⟨rest, Error.EOF⟩).map fun o => { o with pings := o.pings + 1 }
      else
        (decoder.process fuel ⟨rest.drop (Uint32 [b0, b1, b2, b3]), Error.EOF⟩).map
          fun o => { o with out := rest.take (Uint32 [b0, b1, b2, b3]) ++ o.out } := by
  rw [decoder.process, lenRead_four]
  simp only
  by_cases hz : Uint32 [b0, b1, b2, b3] = 0
  · simp [hz]
  · have hz2 : ¬ ((Uint32 [b0, b1, b2, b3] : Int) = 0) := by omega
    simp only [hz, hz2, if_false]
    by_cases hL : Uint32 [b0, b1, b2, b3] ≤ rest.length
    · simp [LimitReader, CopyBuffer, Reader.skip, hL, Nat.min_eq_left hL]
    · have hL2 : rest.length ≤ Uint32 [b0, b1, b2, b3] := by omega
      simp [LimitReader, CopyBuffer, Reader.skip, hL, List.take_of_length_le hL2,
        List.drop_of_length_le hL2]

theorem process_step (r : Reader) :
    (∃ o, ∀ fuel, decoder.process (fuel + 1) r = some o) ∨
    (∃ (r2 : Reader) (f : Outcome → Outcome),
      r2.data.length + 4 ≤ r.data.length ∧ r2.err = r.err ∧
      ∀ fuel, decoder.process (fuel + 1) r = (decoder.process fuel r2).map f) := by
  by_cases h4 : 4 ≤ r.data.length
  · have hl : lenRead r = ((Uint32 (r.data.take 4) : Int), none, r.skip 4) := by
      simp [lenRead, ReadFull, h4]
    have hs : (r.skip 4).data.length + 4 ≤ r.data.length := by
      simp only [Reader.skip, List.length_drop]; omega
    by_cases hz : (Uint32 (r.data.take 4) : Int) = 0
    · refine Or.inr ⟨r.skip 4, fun o => { o with pings := o.pings + 1 }, hs, rfl, ?_⟩
      intro fuel
      rw [decoder.process, hl]
      simp only [hz, if_true]
    · rcases hc : CopyBuffer (LimitReader (r.skip 4) (Uint32 (r.data.take 4) : Int))
        with ⟨written, _ | e⟩
      · refine Or.inr ⟨(r.skip 4).skip written.length,
          fun o => { o with out := written ++ o.out }, ?_, rfl, ?_⟩
        · have : ((r.skip 4).skip written.length).data.length ≤ (r.skip 4).data.length := by
            simp only [Reader.skip, List.length_drop]; omega
          omega
        · intro fuel
          rw [decoder.process, hl]
          simp only [hz, if_false, hc]
      · refine Or.inl ⟨⟨written, 0, some e⟩, ?_⟩
        intro fuel
        rw [decoder.process, hl]
        simp only [hz, if_false, hc]
  · by_cases he : r.data ≠ [] ∧ r.err = Error.EOF
    · refine Or.inl ⟨⟨[], 0, some Error.ErrUnexpectedEOF⟩, ?_⟩
      intro fuel
      rw [decoder.process]
      simp [lenRead, ReadFull, h4, he]
    · refine Or.inl ⟨⟨[], 0, some r.err⟩, ?_⟩
      intro fuel
      rw [decoder.process]
      simp only [lenRead, ReadFull, h4, he, if_false]

theorem process_some (n : Nat) : ∀ r : Reader, r.data.length / 4 < n →
    ∃ o, decoder.process n r = some o := by
  induction n with
  | zero => intro r h; omega
  | succ k ih =>
    intro r h
    rcases process_step r with ⟨o, ho⟩ | ⟨r2, f, hlen, _, hstep⟩
    · exact ⟨o, ho k⟩
    · obtain ⟨o2, ho2⟩ := ih r2 (by omega)
      exact ⟨f o2, by rw [hstep, ho2]; rfl⟩

theorem process_terminates (r : Reader) :
    ∃ o, ∀ fuel, r.data.length / 4 < fuel → decoder.process fuel r = some o := by
  obtain ⟨o, ho⟩ := process_some (r.data.length / 4 + 1) r (by omega)
  exact ⟨o, fun fuel hf => process_mono_le _ _ (by omega) r o ho⟩

theorem process_out_mono (fuel : Nat) : ∀ (w t : List Byte) (fuel2 : Nat) (o o2 : Outcome),
    decoder.process fuel ⟨w, Error.EOF⟩ = some o →
    decoder.process fuel2 ⟨w ++ t, Error.EOF⟩ = some o2 → o.out <+: o2.out := by
  induction fuel with
  | zero => intro w t fuel2 o o2 h; simp [decoder.process] at h
  | succ k ih =>
    intro w t fuel2 o o2 h h2
    cases fuel2 with
    | zero => simp [decoder.process] at h2
    | succ k2 =>
      match w, h, h2 with
      | b0 :: b1 :: b2 :: b3 :: rest, h, h2 =>
        simp only [List.cons_append] at h2
        rw [process_four] at h h2
        by_cases hz : Uint32 [b0, b1, b2, b3] = 0
        · simp only [hz, if_true] at h h2
          cases hp : decoder.process k ⟨rest, Error.EOF⟩ with
          | none => simp [hp] at h
          | some o1 =>
            cases hp2 : decoder.process k2 ⟨rest ++ t, Error.EOF⟩ with
            | none => simp [hp2] at h2
            | some o3 =>
              simp only [hp, hp2, Option.map_some', Option.some.injEq] at h h2
              subst h; subst h2
              exact ih rest t k2 o1 o3 hp hp2
        · simp only [hz, if_false] at h h2
          generalize hL : Uint32 [b0, b1, b2, b3] = L at h h2
          by_cases hle : L ≤ rest.length
          · rw [List.take_append_of_le_length hle, List.drop_append_of_le_length hle] at h2
            cases hp : decoder.process k ⟨rest.drop L, Error.EOF⟩ with
            | none => simp [hp] at h
            | some o1 =>
              cases hp2 : decoder.process k2 ⟨rest.drop L ++ t, Error.EOF⟩ with
              | none => simp [hp2] at h2
              | some o3 =>
                simp only [hp, hp2, Option.map_some', Option.some.injEq] at h h2
                subst h; subst h2
                exact (List.prefix_append_right_inj _).mpr (ih _ t k2 o1 o3 hp hp2)
          · have hge : rest.length ≤ L := by omega
            rw [List.take_of_length_le hge, List.drop_of_length_le hge] at h
            cases k with
            | zero => simp [decoder.process] at h
            | succ k3 =>
              rw [process_short [] (by simp)] at h
              cases hp2 : decoder.process k2 ⟨(rest ++ t).drop L, Error.EOF⟩ with
              | none => simp [hp2] at h2
              | some o3 =>
                simp only [hp2, Option.map_some', Option.some.injEq] at h h2
                subst h; subst h2
                simp only [List.append_nil, List.take_append_eq_append_take,
                  List.take_of_length_le hge, List.append_assoc]
                exact List.prefix_append _ _
      | [], h, _ =>
        rw [process_short [] (by simp)] at h
        simp only [Option.some.injEq] at h
        subst h
        exact List.nil_prefix
      | [b0], h, _ =>
        rw [process_short [b0] (by simp)] at h
        simp only [Option.some.injEq] at h
        subst h
        exact List.nil_prefix
      | [b0, b1], h, _ =>
        rw [process_short [b0, b1] (by simp)] at h
        simp only [Option.some.injEq] at h
        subst h
        exact List.nil_prefix
      | [b0, b1, b2], h, _ =>
        rw [process_short [b0, b1, b2] (by simp)] at h
        simp only [Option.some.injEq] at h
        subst h
        exact List.nil_prefix

theorem loop_fst {σ : Type} (closers : List (Closer σ)) :
    ∀ (s : σ) (err : Option Error),
      (composeClosersImpl.loop closers s err).1 = closers.foldl (fun t c => (c t).1) s := by
  induction closers with
  | nil => intro s err; rfl
  | cons c cs ih => intro s err; rw [composeClosersImpl.loop, ih]; rfl

theorem loop_some {σ : Type} (closers : List (Closer σ)) :
    ∀ (s : σ) (e : Error), (composeClosersImpl.loop closers s (some e)).2 = some e := by
  induction closers with
  | nil => intro s e; rfl
  | cons c cs ih => intro s e; rw [composeClosersImpl.loop]; simp [ih]

theorem loop_snd {σ : Type} (c : Closer σ) (cs : List (Closer σ)) (s : σ) :
    (composeClosersImpl.loop (c :: cs) s none).2 =
      match (c s).2 with
      | some e => some e
      | none => (composeClosersImpl.loop cs (c s).1 none).2 := by
  rw [composeClosersImpl.loop]
  cases h : (c s).2 with
  | none => simp [h]
  | some e => simp [h, loop_some]

theorem Close_logCloser (l : List (Nat × Option Error)) :
    ∀ log : List Nat,
      composeClosersImpl.Close (l.map logCloser) log
        = (log ++ l.map Prod.fst, l.findSome? Prod.snd) := by
  induction l with
  | nil => intro log; simp [composeClosersImpl.Close, composeClosersImpl.loop]
  | cons c cs ih =>
    intro log
    have h2 := loop_snd (logCloser c) (cs.map logCloser) log
    have ih2 := ih (log ++ [c.1])
    have hs : (logCloser c log).1 = log ++ [c.1] := rfl
    have hr : (logCloser c log).2 = c.2 := rfl
    simp only [composeClosersImpl.Close] at ih2 ⊢
    rw [hs, hr, ih2] at h2
    apply Prod.ext
    · rw [List.map_cons, composeClosersImpl.loop, loop_fst, hs,
        ← loop_fst (cs.map logCloser) _ none, ih2]
      simp
    · rw [List.map_cons, h2]
      cases hc : c.2 with
      | none => simp [hc, List.findSome?_cons]
      | some e => simp [hc, List.findSome?_cons]

theorem flatten_filter_ne_nil (chunks : List (List Byte)) :
    (chunks.filter fun p => p ≠ []).flatten = chunks.flatten := by
  induction chunks with
  | nil => rfl
  | cons p ps ih =>
    by_cases hp : p = []
    · subst hp
      simpa [List.filter_cons] using ih
    · simp only [List.filter_cons, hp, ne_eq, not_false_eq_true, decide_True, if_true,
        List.flatten_cons, ih]

theorem chunks_map_app (chunks : List (List Byte)) :
    Call.chunks (chunks.map Call.app) = chunks := by
  induction chunks with
  | nil => rfl
  | cons p ps ih => simp [Call.chunks, ih]

theorem NewReader_run (calls : List Call)
    (hlen : ∀ p ∈ Call.chunks calls, p.length < 4294967296)
    (fuel : Nat) (hfuel : calls.length < fuel) :
    NewReader fuel ⟨encoder.run bufferWrite [] calls, Error.EOF⟩
      = some ⟨(Call.chunks calls).flatten, Error.EOF⟩ := by
  have hb := payload_bound calls hlen
  have hrun := run_accepting bufferWrite id bufferWrite_accepts calls []
    (fun c hc => hb _ (List.mem_map_of_mem _ hc))
  simp only [id, List.nil_append] at hrun
  have hN := NewReader_wireOf (calls.map Call.payload) hb fuel (by simpa using hfuel)
  rw [payload_flatten] at hN
  rw [hrun, hN]

/-! ## Claims -/

/-- C1: whatever chunks with `len < 2^32` the application writes through
`encoder.Write`, with ticker pings at any frame boundaries, a decoder reading the
resulting wire delivers exactly the concatenation `B` of the chunks and then ends
the stream with `EOF`, so that `ReadAll` returns `B` and no error; the result
depends on the chunks only through `B`. -/
theorem C1_round_trip (calls : List Call) (B : List Byte)
    (hB : (Call.chunks calls).flatten = B)
    (hlen : ∀ p ∈ Call.chunks calls, p.length < 4294967296)
    (fuel : Nat) (hfuel : calls.length < fuel) :
    NewReader fuel ⟨encoder.run bufferWrite [] calls, Error.EOF⟩ = some ⟨B, Error.EOF⟩ ∧
    (NewReader fuel ⟨encoder.run bufferWrite [] calls, Error.EOF⟩).map ReadAll
      = some (B, none) := by
  have hb := payload_bound calls hlen
  have hrun := run_accepting bufferWrite id bufferWrite_accepts calls []
    (fun c hc => hb _ (List.mem_map_of_mem _ hc))
  simp only [id, List.nil_append] at hrun
  have hN := NewReader_wireOf (calls.map Call.payload) hb fuel (by simpa using hfuel)
  rw [payload_flatten, hB] at hN
  rw [hrun, hN]
  exact ⟨rfl, rfl⟩

theorem C1_round_trip_witness :
    NewReader 4 ⟨encoder.run bufferWrite [] [Call.app [7, 8], Call.tick, Call.app [9]], Error.EOF⟩
      = some ⟨[7, 8, 9], Error.EOF⟩ ∧
    (NewReader 4 ⟨encoder.run bufferWrite [] [Call.app [7, 8], Call.tick, Call.app [9]],
      Error.EOF⟩).map ReadAll = some ([7, 8, 9], none) :=
  C1_round_trip [Call.app [7, 8], Call.tick, Call.app [9]] [7, 8, 9] (by decide) (by decide) 4
    (by decide)

/-- C2: on a wire made of complete frames with lengths below `2^32`, the decoder
forwards the concatenation, in wire order, of the payloads of the frames of
non-zero length, calls `pingTestCallback` once per frame of length zero, and
closes the pipe with `EOF`. -/
theorem C2_ping_transparency (frames : List (List Byte))
    (hlen : ∀ p ∈ frames, p.length < 4294967296) (fuel : Nat) (hfuel : frames.length < fuel) :
    decoder.process fuel ⟨wireOf frames, Error.EOF⟩ =
      some ⟨(frames.filter fun p => p.length ≠ 0).flatten,
        (frames.filter fun p => p.length = 0).length, some Error.EOF⟩ := by
  rw [flatten_filter_nonempty]
  exact process_complete_frames frames hlen fuel hfuel

theorem C2_ping_transparency_witness :
    decoder.process 5 ⟨wireOf [[], [7, 8], [], [9]], Error.EOF⟩ =
      some ⟨[7, 8, 9], 2, some Error.EOF⟩ :=
  C2_ping_transparency [[], [7, 8], [], [9]] (by decide) 5 (by decide)

/-- C3: the code ends the stream cleanly on a truncated payload.  On the wire
`05 00 00 00 01 02` (five bytes declared, two present) the decoder forwards
`01 02` and closes the pipe with `EOF`, so `ReadAll` returns no error; only a
truncated length prefix, such as `05 00 00`, is closed with
`ErrUnexpectedEOF`. -/
theorem C3_truncated_payload_ends_cleanly :
    decoder.process 2 ⟨[5, 0, 0, 0, 1, 2], Error.EOF⟩ = some ⟨[1, 2], 0, some Error.EOF⟩ ∧
    (NewReader 2 ⟨[5, 0, 0, 0, 1, 2], Error.EOF⟩).map ReadAll = some ([1, 2], none) ∧
    (NewReader 2 ⟨[5, 0, 0], Error.EOF⟩).map ReadAll
      = some ([], some Error.ErrUnexpectedEOF) := by
  decide

/-- C4: on the upgraded path the caller does not read the handler's writes.  The
marker name of `http.go` is not a valid header field name, so `net/http` does
not carry it: for a request without `Accept-Encoding` the server upgrades and
frames the chunks `07 08` and `09` (one ping in between) but the client sees no
marker, and the caller reads the frames
`02 00 00 00 07 08 00 00 00 00 01 00 00 00 09`; a request that is not upgraded
reads `07 08 09`.  Through `serve`, `RoundTrip` never unwraps a body. -/
theorem C4_upgraded_body_arrives_framed :
    ValidHeaderFieldName markerKey = false ∧
    (HTTPTryContentEncoding ⟨fun _ => [], []⟩ (advertise plainRequest)).2.2 = true ∧
    (serve [Call.app [7, 8], Call.tick, Call.app [9]] (advertise plainRequest)).1.Header
      markerKey = [] ∧
    ((HTTPRoundTripper.RoundTrip (serve [Call.app [7, 8], Call.tick, Call.app [9]])
        plainRequest).1.Body.reader 4).map ReadAll
      = some ([2, 0, 0, 0, 7, 8, 0, 0, 0, 0, 1, 0, 0, 0, 9], none) ∧
    ((HTTPRoundTripper.RoundTrip (serve [Call.app [7, 8], Call.tick, Call.app [9]])
        gzipRequest).1.Body.reader 4).map ReadAll
      = some ([7, 8, 9], none) ∧
    (∀ (calls : List Call) (req : Request),
      HTTPRoundTripper.RoundTrip (serve calls) req = serve calls (advertise req)) :=
  ⟨by decide, by decide, by decide, by decide, by decide, RoundTrip_serve⟩

/-- C5: on a sink that accepts every write in full, `encoder.Write(p)` with
`len(p) < 2^32` appends the four bytes `b_i = (len(p) / 256^i) mod 256` followed
by `p`, nothing else, and returns `(len(p), nil)`; a sequence of writes leaves the
concatenation of their frames in call order. -/
theorem C5_encoder_write_postcondition {σ : Type} (w : Writer σ) (held : σ → List Byte)
    (hw : AcceptsInFull w held) :
    (∀ (s : σ) (p : List Byte), p.length < 4294967296 →
      ∃ b0 b1 b2 b3 : Byte,
        b0.val = p.length % 256 ∧ b1.val = p.length / 256 % 256 ∧
        b2.val = p.length / 65536 % 256 ∧ b3.val = p.length / 16777216 % 256 ∧
        held (encoder.Write w s p).1 = held s ++ [b0, b1, b2, b3] ++ p ∧
        (encoder.Write w s p).2 = (p.length, none)) ∧
    (∀ (s : σ) (calls : List Call), (∀ c ∈ calls, c.payload.length < 4294967296) →
      held (encoder.run w s calls) = held s ++ wireOf (calls.map Call.payload)) := by
  refine ⟨?_, fun s calls h => run_accepting w held hw calls s h⟩
  intro s p hp
  obtain ⟨b0, b1, b2, b3, hb, h0, h1, h2, h3⟩ := PutUint32_bytes p.length
  have hW := Write_accepting w held hw s p
  rw [Nat.mod_eq_of_lt hp, hb] at hW
  exact ⟨b0, b1, b2, b3, h0, h1, h2, h3, hW.1, hW.2⟩

theorem C5_encoder_write_postcondition_witness :
    AcceptsInFull bufferWrite id ∧
    encoder.run bufferWrite [] [Call.app [7, 8], Call.tick] = [2, 0, 0, 0, 7, 8, 0, 0, 0, 0] :=
  ⟨bufferWrite_accepts,
    (C5_encoder_write_postcondition bufferWrite id bufferWrite_accepts).2 []
      [Call.app [7, 8], Call.tick] (by decide)⟩

/-- C6: `HTTPTryContentEncoding` returns `upgraded = true` exactly when the first
`Accept-Encoding` value of the request is the token `pingproto/1.0`; it then sets
the marker field of the response to the token, changes no other field and writes
nothing, and returns the framing encoder over the response writer.  Otherwise it
returns `upgraded = false`, leaves the response writer as it was, and returns a
writer whose `Write` is the response writer's own and whose `Close` does nothing
and returns nil. -/
theorem C6_server_negotiation_decision (w : ResponseWriter) (r : Request) :
    ((HTTPTryContentEncoding w r).2.2 = true ↔
      (r.Header "Accept-Encoding").head? = some "pingproto/1.0") ∧
    ((HTTPTryContentEncoding w r).2.2 = true →
      (HTTPTryContentEncoding w r).1.Header markerKey = ["pingproto/1.0"] ∧
      (∀ k, k ≠ markerKey → (HTTPTryContentEncoding w r).1.Header k = w.Header k) ∧
      (HTTPTryContentEncoding w r).1.wire = w.wire ∧
      (HTTPTryContentEncoding w r).2.1.Write = encoder.Write ResponseWriter.Write) ∧
    ((HTTPTryContentEncoding w r).2.2 = false →
      (HTTPTryContentEncoding w r).1 = w ∧
      (HTTPTryContentEncoding w r).2.1.Write = ResponseWriter.Write ∧
      (∀ (w2 : ResponseWriter) (p : List Byte),
        (HTTPTryContentEncoding w r).2.1.Write w2 p = (⟨w2.Header, w2.wire ++ p⟩, p.length, none)) ∧
      (∀ w2 : ResponseWriter, (HTTPTryContentEncoding w r).2.1.Close w2 = (w2, none))) := by
  have key := Get_eq_token_iff r.Header acceptEncodingKey
  by_cases h : Header.Get r.Header acceptEncodingKey = httpEncodingName
  · have hres : HTTPTryContentEncoding w r =
        ({ w with Header := Header.Set w.Header markerKey httpEncodingName },
          WriteCloser.encoder, true) := by
      simp [HTTPTryContentEncoding, h]
    rw [hres]
    refine ⟨⟨fun _ => key.mp h, fun _ => rfl⟩, fun _ => ⟨?_, ?_, rfl, rfl⟩, fun hf => ?_⟩
    · simp [Header.Set, httpEncodingName]
    · intro k hk
      simp [Header.Set, hk]
    · simp at hf
  · have hres : HTTPTryContentEncoding w r = (w, WriteCloser.nop, false) := by
      simp [HTTPTryContentEncoding, h]
    rw [hres]
    refine ⟨⟨fun ht => ?_, fun hk => absurd (key.mpr hk) h⟩, fun ht => ?_,
      fun _ => ⟨rfl, rfl, fun _ _ => rfl, fun _ => rfl⟩⟩
    · simp at ht
    · simp at ht

theorem C6_server_negotiation_decision_witness :
    (HTTPTryContentEncoding ⟨fun _ => [], []⟩ (advertise plainRequest)).1.Header markerKey
      = ["pingproto/1.0"] ∧
    (HTTPTryContentEncoding ⟨fun _ => [], []⟩ gzipRequest).1.wire = [] :=
  ⟨((C6_server_negotiation_decision ⟨fun _ => [], []⟩ (advertise plainRequest)).2.1
      (by decide)).1,
    congrArg ResponseWriter.wire
      ((C6_server_negotiation_decision ⟨fun _ => [], []⟩ gzipRequest).2.2 (by decide)).1⟩

/-- C7: after a successful inner round trip, if the first value of the marker
field of the response is the token, `RoundTrip` exposes the response without the
marker field, every other field unchanged, and with the body replaced by the
decoder over the original body; if it is not (in particular if the marker field
is absent) the response is returned unchanged, headers and body. -/
theorem C7_client_response_handling (inner : RoundTripper) (req : Request) (resp : Response)
    (h : inner (advertise req) = (resp, none)) :
    ((resp.Header markerKey).head? = some "pingproto/1.0" →
      ∃ exposed, HTTPRoundTripper.RoundTrip inner req = (exposed, none) ∧
        exposed.Header markerKey = [] ∧
        (∀ k, k ≠ markerKey → exposed.Header k = resp.Header k) ∧
        exposed.Body = Body.unwrapped resp.Body ∧
        ∀ fuel, exposed.Body.reader fuel = (resp.Body.reader fuel).bind (NewReader fuel)) ∧
    ((resp.Header markerKey).head? ≠ some "pingproto/1.0" →
      HTTPRoundTripper.RoundTrip inner req = (resp, none)) ∧
    (resp.Header markerKey = [] → HTTPRoundTripper.RoundTrip inner req = (resp, none)) := by
  have key := Get_eq_token_iff resp.Header markerKey
  have hno : (resp.Header markerKey).head? ≠ some "pingproto/1.0" →
      HTTPRoundTripper.RoundTrip inner req = (resp, none) := by
    intro hm
    have hg : Header.Get resp.Header markerKey ≠ httpEncodingName := fun hg => hm (key.mp hg)
    simp only [HTTPRoundTripper.RoundTrip, h, hg, ne_eq, not_false_eq_true, if_true]
  refine ⟨fun hm => ?_, hno, fun he => hno (by simp [he])⟩
  have hg : Header.Get resp.Header markerKey = httpEncodingName := key.mpr hm
  refine ⟨⟨Header.Del resp.Header markerKey, Body.unwrapped resp.Body⟩, ?_, ?_, ?_, rfl,
    fun _ => rfl⟩
  · simp only [HTTPRoundTripper.RoundTrip, h, hg, ne_eq, not_true_eq_false, if_false]
  · simp [Header.Del]
  · intro k hk
    simp [Header.Del, hk]

theorem C7_client_response_handling_witness :
    ∃ exposed, HTTPRoundTripper.RoundTrip (fun _ => (markedResponse, none)) plainRequest
          = (exposed, none) ∧
        exposed.Header markerKey = [] ∧
        (∀ k, k ≠ markerKey → exposed.Header k = markedResponse.Header k) ∧
        exposed.Body = Body.unwrapped markedResponse.Body ∧
        ∀ fuel, exposed.Body.reader fuel =
          (markedResponse.Body.reader fuel).bind (NewReader fuel) :=
  (C7_client_response_handling (fun _ => (markedResponse, none)) plainRequest
    markedResponse rfl).1 (by decide)

/-- C8: an advertising client is not always upgraded.  For a request that already
carries `Accept-Encoding: gzip`, `RoundTrip` appends the token after `gzip`;
`HTTPTryContentEncoding` compares only the first value, returns
`upgraded = false` and sets no marker field, so the client gets the body raw.
A request without an earlier `Accept-Encoding` value is upgraded. -/
theorem C8_advertising_client_not_upgraded :
    (advertise gzipRequest).Header "Accept-Encoding" = ["gzip", "pingproto/1.0"] ∧
    (HTTPTryContentEncoding ⟨fun _ => [], []⟩ (advertise gzipRequest)).2.2 = false ∧
    (HTTPTryContentEncoding ⟨fun _ => [], []⟩ (advertise gzipRequest)).1.Header markerKey = [] ∧
    (HTTPRoundTripper.RoundTrip (serve [Call.app [7], Call.tick]) gzipRequest).1.Body
      = Body.raw ⟨[7], Error.EOF⟩ ∧
    (HTTPTryContentEncoding ⟨fun _ => [], []⟩ (advertise plainRequest)).2.2 = true := by
  decide

/-- C9: for `0 <= n < 2^32`, `lenWrite(n)` makes one write of the four bytes
`b_i = (n / 256^i) mod 256`, and `lenRead` over those bytes returns `n` with no
error, leaving what follows unread; conversely `lenRead` succeeds on every four
bytes and `lenWrite` of its result writes those four bytes again. -/
theorem C9_frame_codec_round_trip :
    (∀ n : Int, 0 ≤ n → n < 4294967296 →
      ∃ b0 b1 b2 b3 : Byte,
        (b0.val : Int) = n % 256 ∧ (b1.val : Int) = n / 256 % 256 ∧
        (b2.val : Int) = n / 65536 % 256 ∧ (b3.val : Int) = n / 16777216 % 256 ∧
        (∀ (s : List Byte), lenWrite bufferWrite s n = (s ++ [b0, b1, b2, b3], none)) ∧
        (∀ (rest : List Byte) (e : Error),
          lenRead ⟨[b0, b1, b2, b3] ++ rest, e⟩ = (n, none, (⟨rest, e⟩ : Reader)))) ∧
    (∀ (b0 b1 b2 b3 : Byte) (rest : List Byte) (e : Error),
      ∃ n : Int, lenRead ⟨[b0, b1, b2, b3] ++ rest, e⟩ = (n, none, (⟨rest, e⟩ : Reader)) ∧
        ∀ (s : List Byte), lenWrite bufferWrite s n = (s ++ [b0, b1, b2, b3], none)) := by
  constructor
  · intro n h0 h1
    obtain ⟨b0, b1, b2, b3, hb, e0, e1, e2, e3⟩ := PutUint32_bytes n.toNat
    have hn : (n % 4294967296).toNat = n.toNat := by omega
    refine ⟨b0, b1, b2, b3, by omega, by omega, by omega, by omega, ?_, ?_⟩
    · intro s
      simp only [lenWrite, hn, hb, bufferWrite]
    · intro rest e
      have hr := lenRead_PutUint32 n.toNat (by omega) rest e
      rw [hb] at hr
      rw [hr]
      have : ((n.toNat : Nat) : Int) = n := by omega
      rw [this]
  · intro b0 b1 b2 b3 rest e
    refine ⟨(Uint32 [b0, b1, b2, b3] : Nat), lenRead_four b0 b1 b2 b3 rest e, ?_⟩
    intro s
    have hlt := Uint32_lt [b0, b1, b2, b3]
    have hn : (((Uint32 [b0, b1, b2, b3] : Nat) : Int) % 4294967296).toNat
        = Uint32 [b0, b1, b2, b3] := by omega
    simp only [lenWrite, hn, PutUint32_Uint32, bufferWrite]

theorem C9_frame_codec_round_trip_witness :
    ∃ b0 b1 b2 b3 : Byte,
        (b0.val : Int) = 300 % 256 ∧ (b1.val : Int) = 300 / 256 % 256 ∧
        (b2.val : Int) = 300 / 65536 % 256 ∧ (b3.val : Int) = 300 / 16777216 % 256 ∧
        (∀ (s : List Byte), lenWrite bufferWrite s 300 = (s ++ [b0, b1, b2, b3], none)) ∧
        (∀ (rest : List Byte) (e : Error),
          lenRead ⟨[b0, b1, b2, b3] ++ rest, e⟩ = (300, none, (⟨rest, e⟩ : Reader))) :=
  C9_frame_codec_round_trip.1 300 (by decide) (by decide)

/-- C10: the code does not fail on a length of `2^32` or more.  `lenWrite`
writes the little-endian bytes of the length reduced modulo `2^32` and returns
the sink's result, so `lenWrite(n + 2^32)` equals `lenWrite(n)`, a length of
`2^32` gives the ping prefix `00 00 00 00`, and on a buffer sink `encoder.Write`
reports success for a payload of any length. -/
theorem C10_lenWrite_wraps_on_overflow :
    lenWrite bufferWrite [] 4294967296 = ([0, 0, 0, 0], none) ∧
    lenWrite bufferWrite [] 4294967301 = ([5, 0, 0, 0], none) ∧
    (∀ (n : Int) (s : List Byte),
      lenWrite bufferWrite s (n + 4294967296) = lenWrite bufferWrite s n ∧
      (lenWrite bufferWrite s n).2 = none) ∧
    (∀ (s p : List Byte),
      encoder.Write bufferWrite s p = (s ++ PutUint32 (p.length % 4294967296) ++ p, p.length, none)) := by
  refine ⟨by decide, by decide, ?_, ?_⟩
  · intro n s
    have e : ((n + 4294967296) % 4294967296).toNat = (n % 4294967296).toNat := by omega
    simp only [lenWrite, e, bufferWrite, and_self]
  · intro s p
    have h := Write_accepting bufferWrite id bufferWrite_accepts s p
    exact Prod.ext h.1 h.2

/-- C11: on a wire of complete frames followed by `k <= 3` trailing bytes the
decoder forwards exactly the payloads of the complete frames, none of the
trailing bytes, and closes the pipe with `EOF` when `k = 0` and with
`ErrUnexpectedEOF` when `1 <= k <= 3`; so the consumer's `ReadAll` ends without
error if and only if `k = 0`. -/
theorem C11_clean_termination_iff (frames : List (List Byte))
    (hlen : ∀ p ∈ frames, p.length < 4294967296) (tail : List Byte) (hk : tail.length ≤ 3)
    (fuel : Nat) (hfuel : frames.length < fuel) :
    decoder.process fuel ⟨wireOf frames ++ tail, Error.EOF⟩ =
      some ⟨frames.flatten, (frames.filter fun p => p.length = 0).length,
        some (if tail.length = 0 then Error.EOF else Error.ErrUnexpectedEOF)⟩ ∧
    ((NewReader fuel ⟨wireOf frames ++ tail, Error.EOF⟩).map ReadAll
        = some (frames.flatten, none) ↔ tail.length = 0) ∧
    (1 ≤ tail.length →
      (NewReader fuel ⟨wireOf frames ++ tail, Error.EOF⟩).map ReadAll
        = some (frames.flatten, some Error.ErrUnexpectedEOF)) := by
  have h1 := process_wireOf frames hlen tail Error.EOF 1 _ (process_short tail (by omega) 0)
  simp only [List.append_nil, Nat.add_zero] at h1
  have h2 := process_mono_le _ _ hfuel _ _ h1
  refine ⟨h2, ?_, ?_⟩
  · by_cases hz : tail.length = 0
    · simp [NewReader, h2, hz, CloseWithError, ReadAll]
    · simp [NewReader, h2, hz, CloseWithError, ReadAll]
  · intro hk1
    have hz : ¬ tail.length = 0 := by omega
    simp [NewReader, h2, hz, CloseWithError, ReadAll]

theorem C11_clean_termination_iff_witness :
    (NewReader 3 ⟨wireOf [[7, 8], []] ++ [9, 0], Error.EOF⟩).map ReadAll
      = some ([[7, 8], []].flatten, some Error.ErrUnexpectedEOF) :=
  (C11_clean_termination_iff [[7, 8], []] (by decide) [9, 0] (by decide) 3 (by decide)).2.2
    (by decide)

/-- C12: if the sink fails the write of the length prefix, `encoder.Write`
returns `(0, that error)` and the sink is left as that one write left it (no
payload write is attempted); if the prefix write succeeds, `encoder.Write`
returns exactly what the payload write returns, count and error. -/
theorem C12_write_errors_surfaced {σ : Type} (w : Writer σ) (s : σ) (p : List Byte) :
    (∀ e, (w s (PutUint32 (p.length % 4294967296))).2.2 = some e →
      encoder.Write w s p = ((w s (PutUint32 (p.length % 4294967296))).1, 0, some e)) ∧
    ((w s (PutUint32 (p.length % 4294967296))).2.2 = none →
      encoder.Write w s p = w (w s (PutUint32 (p.length % 4294967296))).1 p) := by
  have e : (((p.length : Nat) : Int) % 4294967296).toNat = p.length % 4294967296 := by omega
  constructor
  · intro err h
    simp only [encoder.Write, lenWrite, e, h]
  · intro h
    simp only [encoder.Write, lenWrite, e, h]

theorem C12_write_errors_surfaced_witness :
    encoder.Write (brokenWrite (Error.other 5)) [] [7, 8]
      = ([[2, 0, 0, 0]], 0, some (Error.other 5)) ∧
    encoder.Write (limitedWrite 5) [] [7, 8] = ([2, 0, 0, 0, 7], 1, some (Error.other 28)) :=
  ⟨(C12_write_errors_surfaced (brokenWrite (Error.other 5)) [] [7, 8]).1 (Error.other 5) rfl,
    (C12_write_errors_surfaced (limitedWrite 5) [] [7, 8]).2 rfl⟩

/-- C13: `composeClosersImpl.Close` calls `Close` once on every closer, in list
order and whether or not earlier ones failed (the state is threaded through all
of them, and closers that log their call leave the list of their names in
order), and returns the error of the first closer that returned one, nil if
none did. -/
theorem C13_composed_close :
    (∀ {σ : Type} (closers : List (Closer σ)) (s : σ),
      (composeClosersImpl.Close closers s).1 = closers.foldl (fun t c => (c t).1) s) ∧
    (∀ {σ : Type} (s : σ), composeClosersImpl.Close ([] : List (Closer σ)) s = (s, none)) ∧
    (∀ {σ : Type} (c : Closer σ) (cs : List (Closer σ)) (s : σ),
      (composeClosersImpl.Close (c :: cs) s).2 =
        match (c s).2 with
        | some e => some e
        | none => (composeClosersImpl.Close cs (c s).1).2) ∧
    (∀ (l : List (Nat × Option Error)) (log : List Nat),
      composeClosersImpl.Close (l.map logCloser) log
        = (log ++ l.map Prod.fst, l.findSome? Prod.snd)) :=
  ⟨fun closers s => loop_fst closers s none, fun _ => rfl,
    fun c cs s => loop_snd c cs s, Close_logCloser⟩

theorem C13_composed_close_witness :
    composeClosersImpl.Close
        ([(1, none), (2, some (Error.other 7)), (3, some Error.EOF)].map logCloser) []
      = ([1, 2, 3], some (Error.other 7)) :=
  C13_composed_close.2.2.2 [(1, none), (2, some (Error.other 7)), (3, some Error.EOF)] []

/-- C14: the code does not use the header named `Content-Encoding`.  After an
upgrade the header named exactly `Content-Encoding` has no value (the token is
set under a name spelled with U+0395, Greek capital epsilon, in place of `E`),
and a response that carries the token under the name `Content-Encoding` is
returned by `RoundTrip` with that header still in place and the body not
decoded. -/
theorem C14_content_encoding_not_marker :
    (HTTPTryContentEncoding ⟨fun _ => [], []⟩ (advertise plainRequest)).2.2 = true ∧
    (HTTPTryContentEncoding ⟨fun _ => [], []⟩ (advertise plainRequest)).1.Header
      "Content-Encoding" = [] ∧
    (HTTPRoundTripper.RoundTrip (fun _ => (asciiMarkedResponse, none)) plainRequest).1.Header
      "Content-Encoding" = ["pingproto/1.0"] ∧
    (HTTPRoundTripper.RoundTrip (fun _ => (asciiMarkedResponse, none)) plainRequest).1.Body
      = Body.raw ⟨[2, 0, 0, 0, 7, 8], Error.EOF⟩ := by
  decide

/-- C17: `encoder.Write` with an empty payload appends exactly `00 00 00 00`,
the same bytes as a ticker ping, and returns `(0, nil)`; the decoder treats that
frame as a ping (one more callback, no output); and two lists of chunks that
differ only by empty chunks decode to the same bytes. -/
theorem C17_empty_write_is_ping :
    (∀ s : List Byte, encoder.Write bufferWrite s [] = (s ++ [0, 0, 0, 0], 0, none)) ∧
    (∀ s : List Byte,
      encoder.run bufferWrite s [Call.tick] = (encoder.Write bufferWrite s []).1) ∧
    (∀ (tail : List Byte) (fuel : Nat),
      decoder.process (fuel + 1) ⟨[0, 0, 0, 0] ++ tail, Error.EOF⟩ =
        (decoder.process fuel ⟨tail, Error.EOF⟩).map
          fun o => { o with pings := o.pings + 1 }) ∧
    (∀ (chunks chunks2 : List (List Byte)) (fuel : Nat),
      (∀ p ∈ chunks, p.length < 4294967296) → (∀ p ∈ chunks2, p.length < 4294967296) →
      (chunks.filter fun p => p ≠ []) = (chunks2.filter fun p => p ≠ []) →
      chunks.length < fuel → chunks2.length < fuel →
      NewReader fuel ⟨encoder.run bufferWrite [] (chunks.map Call.app), Error.EOF⟩
        = some ⟨chunks.flatten, Error.EOF⟩ ∧
      NewReader fuel ⟨encoder.run bufferWrite [] (chunks2.map Call.app), Error.EOF⟩
        = some ⟨chunks.flatten, Error.EOF⟩) := by
  refine ⟨fun s => ?_, fun s => rfl, fun tail fuel => ?_, ?_⟩
  · have h := Write_accepting bufferWrite id bufferWrite_accepts s []
    have hp : PutUint32 (([] : List Byte).length % 4294967296) = [0, 0, 0, 0] := by decide
    rw [hp] at h
    simp only [id, List.append_nil] at h
    exact Prod.ext h.1 h.2
  · rw [List.cons_append, List.cons_append, List.cons_append, List.cons_append,
      List.nil_append, process_four]
    simp [Uint32]
  · intro chunks chunks2 fuel h1 h2 hf hl1 hl2
    have e1 := NewReader_run (chunks.map Call.app) (by rw [chunks_map_app]; exact h1) fuel
      (by simpa using hl1)
    have e2 := NewReader_run (chunks2.map Call.app) (by rw [chunks_map_app]; exact h2) fuel
      (by simpa using hl2)
    rw [chunks_map_app] at e1 e2
    refine ⟨e1, ?_⟩
    rw [e2, ← flatten_filter_ne_nil chunks2, ← hf, flatten_filter_ne_nil]

theorem C17_empty_write_is_ping_witness :
    NewReader 5 ⟨encoder.run bufferWrite [] ([[7, 8], [9]].map Call.app), Error.EOF⟩
        = some ⟨[[7, 8], [9]].flatten, Error.EOF⟩ ∧
    NewReader 5 ⟨encoder.run bufferWrite [] ([[], [7, 8], [], [9]].map Call.app), Error.EOF⟩
        = some ⟨[[7, 8], [9]].flatten, Error.EOF⟩ :=
  C17_empty_write_is_ping.2.2.2 [[7, 8], [9]] [[], [7, 8], [], [9]] 5 (by decide) (by decide)
    (by decide) (by decide) (by decide)

/-- C18: if the wire `w` is a leading part of the wire `w ++ t`, the bytes the
decoder forwards when reading `w` are a leading part of the bytes it forwards
when reading `w ++ t`; in particular, when `w` is a leading part of a wire of
complete frames, everything forwarded is a leading part of the concatenated
payloads of those frames. -/
theorem C18_streaming_monotone (w t : List Byte) :
    ∃ o o2 : Outcome,
      (∀ fuel, w.length / 4 < fuel → decoder.process fuel ⟨w, Error.EOF⟩ = some o) ∧
      (∀ fuel, (w ++ t).length / 4 < fuel →
        decoder.process fuel ⟨w ++ t, Error.EOF⟩ = some o2) ∧
      o.out <+: o2.out ∧
      (∀ frames : List (List Byte), (∀ p ∈ frames, p.length < 4294967296) →
        w <+: wireOf frames → o.out <+: frames.flatten) := by
  obtain ⟨o, ho⟩ := process_terminates ⟨w, Error.EOF⟩
  obtain ⟨o2, ho2⟩ := process_terminates ⟨w ++ t, Error.EOF⟩
  refine ⟨o, o2, ho, ho2, ?_, ?_⟩
  · exact process_out_mono _ w t _ o o2 (ho _ (Nat.lt_succ_self _)) (ho2 _ (Nat.lt_succ_self _))
  · intro frames hlen hw
    obtain ⟨u, hu⟩ := hw
    have hc := process_complete_frames frames hlen (frames.length + 1) (Nat.lt_succ_self _)
    rw [← hu] at hc
    exact process_out_mono _ w u _ o _ (ho _ (Nat.lt_succ_self _)) hc

theorem C18_streaming_monotone_witness :
    ∃ o o2 : Outcome,
      (∀ fuel, [2, 0, 0, 0, 7].length / 4 < fuel →
        decoder.process fuel ⟨[2, 0, 0, 0, 7], Error.EOF⟩ = some o) ∧
      (∀ fuel, (([2, 0, 0, 0, 7] : List Byte) ++ [8, 1, 0]).length / 4 < fuel →
        decoder.process fuel ⟨[2, 0, 0, 0, 7] ++ [8, 1, 0], Error.EOF⟩ = some o2) ∧
      o.out <+: o2.out ∧
      (∀ frames : List (List Byte), (∀ p ∈ frames, p.length < 4294967296) →
        [2, 0, 0, 0, 7] <+: wireOf frames → o.out <+: frames.flatten) :=
  C18_streaming_monotone [2, 0, 0, 0, 7] [8, 1, 0]

/-- C19: for every input, whatever its bytes and terminal error, the frame loop
of `decoder.process` ends within `len / 4 + 1` iterations; and every iteration
either ends the loop or continues on the input with at least four bytes fewer. -/
theorem C19_decoder_terminates (r : Reader) :
    (∃ o, ∀ fuel, r.data.length / 4 < fuel → decoder.process fuel r = some o) ∧
    ((∃ o, ∀ fuel, decoder.process (fuel + 1) r = some o) ∨
      (∃ (r2 : Reader) (f : Outcome → Outcome),
        r2.data.length + 4 ≤ r.data.length ∧ r2.err = r.err ∧
        ∀ fuel, decoder.process (fuel + 1) r = (decoder.process fuel r2).map f)) :=
  ⟨process_terminates r, process_step r⟩

theorem C19_decoder_terminates_witness :
    ∃ o, decoder.process 3 ⟨[255, 255, 255, 255, 0, 0, 0, 0, 1], Error.other 3⟩ = some o :=
  (C19_decoder_terminates ⟨[255, 255, 255, 255, 0, 0, 0, 0, 1], Error.other 3⟩).1.elim
    fun o h => ⟨o, h 3 (by decide)⟩

end PingProto
